import Mathlib

/-!
Verification of the multilevel solver in bueler/fas-intro.

The development shallowly embeds the two mesh-level modules and the two
cycle engines of the repository:

* `MeshA` embeds src/py/meshlevel.py: level k has m = 2^(k+1) subintervals,
  vectors have length m+1 (nodes 0..m), h = 1/m.
* `MeshB` embeds src/py/1D/meshlevel.py: level j has m = 2^(j+1) - 1
  interior nodes, vectors have length m+2 (nodes 0..m+1), h = 1/(m+1).
* `FAS` embeds src/fas/py/cycles.py; the problem object `prob` and the
  fas-side mesh methods (P, Rfw, CR) are constructor-injected collaborators
  in the Python code, so they appear here as function parameters.
* `SubsetDecomp` embeds src/py/subsetdecomp.py; the pgssweep smoother and
  the poisson residual come from modules not present in the repository
  snapshot, so they too are function parameters.

Vectors are rational-valued: machine floating point is modelled by exact
rational arithmetic.  numpy arrays become `List ℚ`; out-of-range reads use
`List.getD _ _ 0`, and every theorem carries the length hypotheses that the
corresponding Python asserts enforce.  Python runtime failures are modelled
by the `PyError` type.
-/

namespace FasIntro

/-- Runtime failures of the Python code: a bare `assert` without message,
an assertion whose formatted message reports a length mismatch, a NameError
raised while formatting an assertion message, and a numpy shape error. -/
inductive PyError where
  | assertionFailed : PyError
  | lengthMismatch (got expected : ℕ) : PyError
  | nameError (missing : String) : PyError
  | valueError : PyError
deriving DecidableEq, Repr

/-- Value of an index-`i` read of a numpy array modelled as a list;
reads in the embedded formulas are always in range when the length
assertions hold. -/
def gd (v : List ℚ) (i : ℕ) : ℚ := v.getD i 0

namespace MeshA

/-- Number of subintervals of MeshLevel1D(k) in src/py/meshlevel.py:
m = 2^(k+1); nodes are 0..m. -/
def m (k : ℕ) : ℕ := 2 ^ (k + 1)

/-- Grid spacing h = 1/m of src/py/meshlevel.py. -/
def h (k : ℕ) : ℚ := 1 / (m k : ℚ)

/-- Number of subintervals of the next-coarser mesh: mcoarser = 2^k. -/
def mcoarser (k : ℕ) : ℕ := 2 ^ k

/-- Pointwise value of MeshLevel1D.prolong from src/py/meshlevel.py,
for a fine mesh with mc = mcoarser: y[0] = y[2mc] = 0 (zeros array),
y[1] = 0.5 v[1], y[2q] = v[q] and y[2q+1] = 0.5 (v[q] + v[q+1]) for
q = 1..mc-2, y[2mc-2] = v[mc-1], y[2mc-1] = 0.5 v[mc-1]. -/
def prolongVal (mc : ℕ) (v : ℕ → ℚ) (p : ℕ) : ℚ :=
  if p = 0 ∨ p = 2 * mc then 0
  else if p = 1 then 0.5 * v 1
  else if p = 2 * mc - 1 then 0.5 * v (mc - 1)
  else if p = 2 * mc - 2 then v (mc - 1)
  else if p % 2 = 0 then v (p / 2)
  else 0.5 * (v (p / 2) + v (p / 2 + 1))

/-- MeshLevel1D.prolong from src/py/meshlevel.py: linear interpolation
from the next-coarser mesh (mc subintervals) to the current mesh
(2mc subintervals, output length 2mc+1). -/
def prolong (mc : ℕ) (v : List ℚ) : List ℚ :=
  List.ofFn fun p : Fin (2 * mc + 1) => prolongVal mc (gd v) p

/-- Pointwise value of MeshLevel1D.CR from src/py/meshlevel.py:
y[q] = 0.5 v[2q-1] + v[2q] + 0.5 v[2q+1] at interior coarse nodes
q = 1..mc-1, zero at the boundary nodes. -/
def CRVal (mc : ℕ) (v : ℕ → ℚ) (q : ℕ) : ℚ :=
  if 1 ≤ q ∧ q ≤ mc - 1 then
    0.5 * v (2 * q - 1) + v (2 * q) + 0.5 * v (2 * q + 1)
  else 0

/-- MeshLevel1D.CR from src/py/meshlevel.py: canonical restriction of a
linear functional from the current mesh (length 2mc+1) to the next-coarser
mesh (length mc+1). -/
def CR (mc : ℕ) (v : List ℚ) : List ℚ :=
  List.ofFn fun q : Fin (mc + 1) => CRVal mc (gd v) q

/-- Pointwise value of MeshLevel1D.MR from src/py/meshlevel.py:
y[0] = max(v[0:2]), y[q] = max(v[2q-1:2q+2]) for q = 1..mc-1,
y[mc] = max(v[2mc-1:2mc+1]). -/
def MRVal (mc : ℕ) (v : ℕ → ℚ) (q : ℕ) : ℚ :=
  if q = 0 then max (v 0) (v 1)
  else if q = mc then max (v (2 * mc - 1)) (v (2 * mc))
  else max (max (v (2 * q - 1)) (v (2 * q))) (v (2 * q + 1))

/-- MeshLevel1D.MR from src/py/meshlevel.py: monotone restriction from the
current mesh (length 2mc+1) to the next-coarser mesh (length mc+1). -/
def MR (mc : ℕ) (v : List ℚ) : List ℚ :=
  List.ofFn fun q : Fin (mc + 1) => MRVal mc (gd v) q

/-- MeshLevel1D.l2norm from src/py/meshlevel.py has no length check; it
computes sqrt(h (0.5 u[0]^2 + sum(u[1:-1]^2) + 0.5 u[-1]^2)) for whatever
vector it is given (u[0] on an empty array would raise IndexError, hence
`none` there).  We return the radicand, the square of the norm, since the
square root is irrational-valued; the code result is its square root. -/
def l2normSq (k : ℕ) (u : List ℚ) : Option ℚ :=
  match u with
  | [] => none
  | _ =>
    some (h k * (0.5 * gd u 0 * gd u 0
      + (((u.drop 1).dropLast).map fun x => x * x).sum
      + 0.5 * u.getLastD 0 * u.getLastD 0))

/-- MeshLevel1D.residual from src/py/meshlevel.py: the residual functional
r[p] = (h/2)(f(x_{p-1/2}) + f(x_{p+1/2})) - (1/h)(2u[p] - u[p-1] - u[p+1])
at interior nodes, zero at the boundary.  The message expression of the length assertion interpolates `len(v)` but no `v` is in scope, so a wrong-length
input raises NameError for the name v rather than the formatted
AssertionError. -/
def residual (k : ℕ) (u : List ℚ) (f : ℚ → ℚ) : Except PyError (List ℚ) :=
  if u.length = m k + 1 then
    .ok (List.ofFn fun p : Fin (m k + 1) =>
      if 1 ≤ (p : ℕ) ∧ (p : ℕ) ≤ m k - 1 then
        h k / 2 * (f ((((p : ℕ) : ℚ) - 0.5) * h k) + f ((((p : ℕ) : ℚ) + 0.5) * h k))
          - 1 / h k * (2 * gd u p - gd u ((p : ℕ) - 1) - gd u ((p : ℕ) + 1))
      else 0)
  else
    .error (.nameError "v")

/-- Tolerance osreps = 1.0e-10 from MeshLevel1D.inactiveresidual. -/
def osreps : ℚ := 1e-10

/-- MeshLevel1D.inactiveresidual from src/py/meshlevel.py: computes the
residual, then at every node where u[p] < phi[p] + osreps replaces the
value by max(r[p], 0); numpy raises a shape error when phi does not match
u in length. -/
def inactiveresidual (k : ℕ) (u : List ℚ) (f : ℚ → ℚ) (phi : List ℚ) :
    Except PyError (List ℚ) :=
  match residual k u f with
  | .error e => .error e
  | .ok r =>
    if phi.length = u.length then
      .ok (List.ofFn fun p : Fin (m k + 1) =>
        if gd u p < gd phi p + osreps then max (gd r p) 0 else gd r p)
    else .error .valueError

end MeshA

namespace MeshB

/-- Number of interior nodes of MeshLevel1D(j) in src/py/1D/meshlevel.py:
m = 2^(j+1) - 1; nodes are 0..m+1. -/
def m (j : ℕ) : ℕ := 2 ^ (j + 1) - 1

/-- Grid spacing h = 1/(m+1) of src/py/1D/meshlevel.py. -/
def h (j : ℕ) : ℚ := 1 / ((m j : ℚ) + 1)

/-- Interior-node count of the next-coarser mesh: mcoarser = 2^j - 1. -/
def mcoarser (j : ℕ) : ℕ := 2 ^ j - 1

/-- MeshLevel1D.checklen from src/py/1D/meshlevel.py: asserts that the
vector length matches the mesh (m+2, or mcoarser+2 for a coarser-mesh
vector), failing with the formatted length-mismatch assertion message. -/
def checklen (j : ℕ) (coarser : Bool) (v : List ℚ) : Except PyError Unit :=
  let goodlen := if coarser then mcoarser j + 2 else m j + 2
  if v.length = goodlen then .ok ()
  else .error (.lengthMismatch v.length goodlen)

/-- MeshLevel1D.l2norm from src/py/1D/meshlevel.py: checklen, then the
trapezoid rule value sqrt(h (0.5 u[0]^2 + sum(u[1:-1]^2) + 0.5 u[-1]^2)).
We return the radicand, the square of the norm, since the square root is
irrational-valued; the code result is its square root. -/
def l2normSq (j : ℕ) (u : List ℚ) : Except PyError ℚ := do
  let _ ← checklen j false u
  pure (h j * (0.5 * gd u 0 * gd u 0
    + (((u.drop 1).dropLast).map fun x => x * x).sum
    + 0.5 * u.getLastD 0 * u.getLastD 0))

/-- Pointwise value of MeshLevel1D.cP from src/py/1D/meshlevel.py, for a
fine mesh whose coarser neighbour has mc interior nodes: the fine vector
has length 2mc+3; y[0] = 0 (zeros array), y[1] = 0.5 v[1],
y[2q] = v[q] and y[2q+1] = 0.5 (v[q] + v[q+1]) for q = 1..mc-1,
y[2mc] = v[mc], y[2mc+1] = 0.5 v[mc], y[2mc+2] = 0. -/
def cPVal (mc : ℕ) (v : ℕ → ℚ) (p : ℕ) : ℚ :=
  if p = 0 ∨ 2 * mc + 2 ≤ p then 0
  else if p = 1 then 0.5 * v 1
  else if p = 2 * mc then v mc
  else if p = 2 * mc + 1 then 0.5 * v mc
  else if p % 2 = 0 then v (p / 2)
  else 0.5 * (v (p / 2) + v (p / 2 + 1))

/-- MeshLevel1D.cP from src/py/1D/meshlevel.py: linear-interpolation
prolongation from the next-coarser mesh (length mc+2) to the current mesh
(length 2mc+3). -/
def cP (mc : ℕ) (v : List ℚ) : List ℚ :=
  List.ofFn fun p : Fin (2 * mc + 3) => cPVal mc (gd v) p

/-- Pointwise value of MeshLevel1D.cR from src/py/1D/meshlevel.py:
y[q] = 0.5 ell[2q-1] + ell[2q] + 0.5 ell[2q+1] at interior coarse nodes
q = 1..mc, zero at the boundary nodes. -/
def cRVal (mc : ℕ) (ell : ℕ → ℚ) (q : ℕ) : ℚ :=
  if 1 ≤ q ∧ q ≤ mc then
    0.5 * ell (2 * q - 1) + ell (2 * q) + 0.5 * ell (2 * q + 1)
  else 0

/-- MeshLevel1D.cR from src/py/1D/meshlevel.py: canonical restriction of a
linear functional from the current mesh (length 2mc+3) to the next-coarser
mesh (length mc+2). -/
def cR (mc : ℕ) (ell : List ℚ) : List ℚ :=
  List.ofFn fun q : Fin (mc + 2) => cRVal mc (gd ell) q

/-- Pointwise value of MeshLevel1D.mR from src/py/1D/meshlevel.py:
y[q] = max(v[2q-1:2q+2]) at interior coarse nodes q = 1..mc, zero at the
boundary nodes. -/
def mRVal (mc : ℕ) (v : ℕ → ℚ) (q : ℕ) : ℚ :=
  if 1 ≤ q ∧ q ≤ mc then
    max (max (v (2 * q - 1)) (v (2 * q))) (v (2 * q + 1))
  else 0

/-- MeshLevel1D.mR from src/py/1D/meshlevel.py: monotone restriction from
the current mesh (length 2mc+3) to the next-coarser mesh (length mc+2). -/
def mR (mc : ℕ) (v : List ℚ) : List ℚ :=
  List.ofFn fun q : Fin (mc + 2) => mRVal mc (gd v) q

end MeshB

namespace FAS

/-- Grid functions of the FAS engine, indexed by node. -/
abbrev Vec := ℕ → ℚ

/-- Per-level work-unit counters (self.wu, an array of floats). -/
abbrev WU := ℕ → ℚ

/-- Add `n` work units at level `k` (self.wu[k] += n). -/
def bump (wu : WU) (k : ℕ) (n : ℚ) : WU :=
  fun j => if j = k then wu j + n else wu j

/-- FAS.wutotal from src/fas/py/cycles.py: the weighted sum
tot = sum over k in range(kfine+1) of wu[kfine-k] / 2^k. -/
def wutotal (kfine : ℕ) (wu : WU) : ℚ :=
  ∑ k ∈ Finset.range (kfine + 1), wu (kfine - k) / 2 ^ k

section Engine

/- Collaborators of the FAS class, injected at construction in Python:
the nonlinear operator prob.F(h, u), the forward and backward NGS sweeps
(FAS.ngssweep over prob.ngspoint), and the fas-side mesh methods
meshes[k].P, meshes[k].Rfw, meshes[k].CR with spacings meshes[k].h. -/
variable (kcoarse coarse down up : ℕ)
variable (F : ℚ → Vec → Vec)
variable (sweepF sweepB : ℕ → Vec → Vec → Vec)
variable (P Rfw CRop : ℕ → Vec → Vec)
variable (hlev : ℕ → ℚ)

/-- FAS.coarsesolve from src/fas/py/cycles.py: `coarse` forward NGS
sweeps on the coarsest level, then wu[kcoarse] += coarse. -/
def coarsesolve (u ell : Vec) (wu : WU) : Vec × WU :=
  ((fun w => sweepF kcoarse w ell)^[coarse] u, bump wu kcoarse coarse)

/-- FAS.vcycle from src/fas/py/cycles.py.  At k = kcoarse it is the
coarse solve; a call with k < kcoarse fails the `assert k > self.kcoarse`;
otherwise: `down` forward NGS sweeps, wu[k] += down, fine residual
rfine = ell - F(h_k, u), Ru = Rfw(u),
coarseell = CR(rfine) + F(h_(k-1), Ru), recursion on a copy of Ru,
correction u += P(ucoarse - Ru), then `up` backward NGS sweeps and
wu[k] += up. -/
def vcycle : ℕ → Vec → Vec → WU → Except PyError (Vec × WU)
  | 0, u, ell, wu =>
    if 0 = kcoarse then .ok (coarsesolve kcoarse coarse sweepF u ell wu)
    else .error .assertionFailed
  | k + 1, u, ell, wu =>
    if k + 1 = kcoarse then .ok (coarsesolve kcoarse coarse sweepF u ell wu)
    else if k + 1 < kcoarse then .error .assertionFailed
    else
      let u1 := (fun w => sweepF (k + 1) w ell)^[down] u
      let wu1 := bump wu (k + 1) down
      let rfine := ell - F (hlev (k + 1)) u1
      let Ru := Rfw (k + 1) u1
      let coarseell := CRop (k + 1) rfine + F (hlev k) Ru
      match vcycle k Ru coarseell wu1 with
      | .error e => .error e
      | .ok (ucoarse, wu2) =>
        let du := ucoarse - Ru
        let u2 := u1 + P (k + 1) du
        let u3 := (fun w => sweepB (k + 1) w ell)^[up] u2
        .ok (u3, bump wu2 (k + 1) up)

end Engine

end FAS

namespace SubsetDecomp

section Engine

/- Collaborators of src/py/subsetdecomp.py that are imported from modules
absent from the repository snapshot (pgs.pgssweep and poisson.residual),
plus the configuration flags.  pgs j fwd v F phi performs one projected
Gauss-Seidel sweep at level j and returns the updated vector and the
infeasibility count; res j v F is the residual of the level-j problem. -/
variable (pgs : ℕ → Bool → List ℚ → List ℚ → List ℚ → List ℚ × ℕ)
variable (res : ℕ → List ℚ → List ℚ → List ℚ)
variable (symmetric : Bool)

/-- The _smoother helper of src/py/subsetdecomp.py: `s` projected
Gauss-Seidel sweeps (each doubled with a backward sweep when symmetric),
accumulating the infeasibility count. -/
def smoother (j : ℕ) : ℕ → List ℚ → List ℚ → List ℚ → List ℚ × ℕ
  | 0, v, _, _ => (v, 0)
  | s + 1, v, F, phi =>
    let s1 := pgs j true v F phi
    let s2 := if symmetric then pgs j false s1.1 F phi else (s1.1, 0)
    let s3 := smoother j s s2.1 F phi
    (s3.1, s1.2 + s2.2 + s3.2)

/-- The vcycle function of src/py/subsetdecomp.py, the Tai (2003)
multilevel constraint decomposition V-cycle.  The chi fields stored on
hierarchy[0..J] become the map `chi`; the returned triple is
(v, infeas, updated chi map).  Guards: assert down >= 1 and up >= 0 and
coarse >= 1, and assert len(F) == mesh.m + 2.  At j = 0 the coarse solve
runs `coarse` PGS sweeps against chi[0].  Otherwise: chi[j-1] := mR(chi[j]),
phi := chi[j] - P(chi[j-1]) halved when up > 0, `down` PGS sweeps from the
zero vector, Fcoarse := cR(residual(v, F)), recursion, v += P(vcoarse),
then `up` PGS sweeps against the same phi when up > 0. -/
def vcycle (down up coarse : ℤ) :
    ℕ → (ℕ → List ℚ) → List ℚ → Except PyError (List ℚ × ℕ × (ℕ → List ℚ))
  | j, chi, F =>
    if ¬(1 ≤ down ∧ 0 ≤ up ∧ 1 ≤ coarse) then .error .assertionFailed
    else if F.length ≠ MeshB.m j + 2 then .error .assertionFailed
    else
      let v0 := List.replicate (MeshB.m j + 2) (0 : ℚ)
      match j with
      | 0 =>
        let s := smoother pgs symmetric 0 coarse.toNat v0 F (chi 0)
        .ok (s.1, s.2, chi)
      | j' + 1 =>
        let mc := MeshB.mcoarser (j' + 1)
        let chiC := MeshB.mR mc (chi (j' + 1))
        let chi1 := Function.update chi j' chiC
        let phi0 := List.zipWith (fun a b => a - b) (chi (j' + 1)) (MeshB.cP mc chiC)
        let phi := if 0 < up then phi0.map (fun x => x * 0.5) else phi0
        let s1 := smoother pgs symmetric (j' + 1) down.toNat v0 F phi
        let Fcoarse := MeshB.cR mc (res (j' + 1) s1.1 F)
        match vcycle down up coarse j' chi1 Fcoarse with
        | .error e => .error e
        | .ok (vcoarse, ifc, chi2) =>
          let v2 := List.zipWith (fun a b => a + b) s1.1 (MeshB.cP mc vcoarse)
          let s3 := if 0 < up then smoother pgs symmetric (j' + 1) up.toNat v2 F phi
                    else (v2, 0)
          .ok (s3.1, s1.2 + ifc + s3.2, chi2)

end Engine

end SubsetDecomp

/-- Modelled from the spec: the discrete inner product pairing a linear
functional with a grid function, the plain sum of products of nodal
values; the repository snapshot holds no test harness computing it, so it
is taken from the adjoint-property sentence of the spec. -/
def dotP (a b : List ℚ) : ℚ := (List.zipWith (fun x y => x * y) a b).sum

/-- Values of a coarse vector masked to the interior node range lo..hi,
zero elsewhere: the part of a coarse input that prolongation can see. -/
def interiorMask (lo hi : ℕ) (v : ℕ → ℚ) (q : ℕ) : ℚ :=
  if lo ≤ q ∧ q ≤ hi then v q else 0

/-! ## Helper lemmas -/

theorem gd_ofFn {n : ℕ} (f : Fin n → ℚ) (i : ℕ) :
    gd (List.ofFn f) i = if h : i < n then f ⟨i, h⟩ else 0 := by
  unfold gd
  rw [List.getD_eq_getElem?_getD, List.getElem?_ofFn]
  by_cases h : i < n <;> simp [List.ofFnNthVal, h]

theorem sum_even_odd (M : ℕ) (f : ℕ → ℚ) :
    ∑ p ∈ Finset.range (2 * M + 1), f p
      = (∑ q ∈ Finset.range M, (f (2 * q) + f (2 * q + 1))) + f (2 * M) := by
  induction M with
  | zero => simp
  | succ n ih =>
    have h2 : 2 * (n + 1) + 1 = (2 * n + 1) + 1 + 1 := by ring
    rw [h2, Finset.sum_range_succ, Finset.sum_range_succ, ih, Finset.sum_range_succ]
    have e1 : 2 * n + 1 + 1 = 2 * (n + 1) := by ring
    rw [e1]
    ring

/-- Summation by parts for the linear-interpolation stencil: pairing a
fine vector with the interpolation of a masked coarse vector equals
pairing the canonical-restriction stencil of the fine vector with the
masked coarse vector. -/
theorem pairing_core (M : ℕ) (v ub : ℕ → ℚ) (h0 : ub 0 = 0) (hM : ub M = 0) :
    ∑ p ∈ Finset.range (2 * M + 1),
        v p * (if p % 2 = 0 then ub (p / 2) else 0.5 * (ub (p / 2) + ub (p / 2 + 1)))
      = ∑ q ∈ Finset.range (M + 1),
          (0.5 * v (2 * q - 1) + v (2 * q) + 0.5 * v (2 * q + 1)) * ub q := by
  rw [sum_even_odd]
  rw [Finset.sum_range_succ]
  have hlast : v (2 * M) * (if (2 * M) % 2 = 0 then ub ((2 * M) / 2)
      else 0.5 * (ub ((2 * M) / 2) + ub ((2 * M) / 2 + 1))) = 0 := by
    have hm : (2 * M) % 2 = 0 := by omega
    have hd : (2 * M) / 2 = M := by omega
    rw [if_pos hm, hd, hM, mul_zero]
  have hlast2 : (0.5 * v (2 * M - 1) + v (2 * M) + 0.5 * v (2 * M + 1)) * ub M = 0 := by
    rw [hM, mul_zero]
  rw [hlast, hlast2, add_zero, add_zero]
  have hterm : ∀ q ∈ Finset.range M,
      (v (2 * q) * (if (2 * q) % 2 = 0 then ub ((2 * q) / 2)
          else 0.5 * (ub ((2 * q) / 2) + ub ((2 * q) / 2 + 1)))
        + v (2 * q + 1) * (if (2 * q + 1) % 2 = 0 then ub ((2 * q + 1) / 2)
          else 0.5 * (ub ((2 * q + 1) / 2) + ub ((2 * q + 1) / 2 + 1))))
      = (0.5 * v (2 * q - 1) + v (2 * q) + 0.5 * v (2 * q + 1)) * ub q
        + ((0.5 * v (2 * (q + 1) - 1) * ub (q + 1)) - (0.5 * v (2 * q - 1) * ub q)) := by
    intro q _
    have hm1 : (2 * q) % 2 = 0 := by omega
    have hd1 : (2 * q) / 2 = q := by omega
    have hm2 : ¬(2 * q + 1) % 2 = 0 := by omega
    have hd2 : (2 * q + 1) / 2 = q := by omega
    have hi : 2 * (q + 1) - 1 = 2 * q + 1 := by omega
    rw [if_pos hm1, if_neg hm2, hd1, hd2, hi]
    ring
  rw [Finset.sum_congr rfl hterm, Finset.sum_add_distrib,
      Finset.sum_range_sub (fun q => 0.5 * v (2 * q - 1) * ub q) M]
  rw [hM, h0, mul_zero, mul_zero, sub_zero, add_zero]

theorem dotP_eq_sum (a b : List ℚ) :
    dotP a b = ∑ i ∈ Finset.range (min a.length b.length), gd a i * gd b i := by
  induction a generalizing b with
  | nil => simp [dotP]
  | cons x xs ih =>
    cases b with
    | nil => simp [dotP]
    | cons y ys =>
      have hmin : min (x :: xs).length (y :: ys).length
          = min xs.length ys.length + 1 := by
        simp [List.length_cons]
        omega
      rw [hmin, Finset.sum_range_succ']
      have h0 : gd (x :: xs) 0 * gd (y :: ys) 0 = x * y := by simp [gd]
      have hs : ∀ i : ℕ, gd (x :: xs) (i + 1) * gd (y :: ys) (i + 1)
          = gd xs i * gd ys i := by intro i; simp [gd]
      simp only [hs, h0]
      rw [← ih ys]
      simp [dotP]
      ring

theorem map_sum_sq (l : List ℚ) :
    (l.map fun x => x * x).sum = ∑ i ∈ Finset.range l.length, gd l i * gd l i := by
  induction l with
  | nil => simp
  | cons x xs ih =>
    rw [List.length_cons, Finset.sum_range_succ']
    simp only [gd, List.getD_cons_succ, List.getD_cons_zero]
    have ih2 : (List.map (fun x => x * x) xs).sum
        = ∑ i ∈ Finset.range xs.length, xs.getD i 0 * xs.getD i 0 := ih
    rw [← ih2]
    simp
    ring

theorem interior_gd (u : List ℚ) (i : ℕ) (hi : i < u.length - 2) :
    gd ((u.drop 1).dropLast) i = gd u (i + 1) := by
  unfold gd
  have h1 : ((u.drop 1).dropLast).length = u.length - 2 := by
    simp [List.length_dropLast, List.length_drop]
    omega
  rw [List.getD_eq_getElem?_getD, List.getD_eq_getElem?_getD]
  rw [List.getElem?_eq_getElem (by omega : i < ((u.drop 1).dropLast).length)]
  rw [List.getElem_dropLast, List.getElem_drop]
  rw [List.getElem?_eq_getElem (by simp [List.length_drop] at h1 ⊢; omega)]
  have h2 : 1 + i = i + 1 := by omega
  simp [h2]

theorem getLastD_gd (u : List ℚ) : u.getLastD 0 = gd u (u.length - 1) := by
  unfold gd
  rw [List.getLastD_eq_getLast?, List.getLast?_eq_getElem?, List.getD_eq_getElem?_getD]

theorem prolongVal_eq_interp (mc : ℕ) (hmc : 2 ≤ mc) (v : ℕ → ℚ) (p : ℕ)
    (hp : p ≤ 2 * mc) :
    MeshA.prolongVal mc v p
      = if p % 2 = 0 then interiorMask 1 (mc - 1) v (p / 2)
        else 0.5 * (interiorMask 1 (mc - 1) v (p / 2)
          + interiorMask 1 (mc - 1) v (p / 2 + 1)) := by
  unfold MeshA.prolongVal interiorMask
  by_cases h0 : p = 0 ∨ p = 2 * mc
  · rw [if_pos h0]
    rcases h0 with h | h <;> subst h
    · rw [if_pos (by omega : 0 % 2 = 0), if_neg (by omega : ¬(1 ≤ 0 / 2 ∧ 0 / 2 ≤ mc - 1))]
    · rw [if_pos (by omega : (2 * mc) % 2 = 0),
        if_neg (by omega : ¬(1 ≤ 2 * mc / 2 ∧ 2 * mc / 2 ≤ mc - 1))]
  · rw [if_neg h0]
    push_neg at h0
    obtain ⟨hne0, hne2mc⟩ := h0
    by_cases h1 : p = 1
    · subst h1
      rw [if_pos rfl, if_neg (by omega : ¬1 % 2 = 0),
        if_neg (by omega : ¬(1 ≤ 1 / 2 ∧ 1 / 2 ≤ mc - 1)),
        if_pos (by omega : 1 ≤ 1 / 2 + 1 ∧ 1 / 2 + 1 ≤ mc - 1)]
      norm_num
    · rw [if_neg h1]
      by_cases h2 : p = 2 * mc - 1
      · subst h2
        rw [if_pos rfl, if_neg (by omega : ¬(2 * mc - 1) % 2 = 0),
          if_pos (by omega : 1 ≤ (2 * mc - 1) / 2 ∧ (2 * mc - 1) / 2 ≤ mc - 1),
          if_neg (by omega : ¬(1 ≤ (2 * mc - 1) / 2 + 1 ∧ (2 * mc - 1) / 2 + 1 ≤ mc - 1))]
        have hd : (2 * mc - 1) / 2 = mc - 1 := by omega
        rw [hd]
        ring
      · rw [if_neg h2]
        by_cases h3 : p = 2 * mc - 2
        · subst h3
          rw [if_pos rfl, if_pos (by omega : (2 * mc - 2) % 2 = 0),
            if_pos (by omega : 1 ≤ (2 * mc - 2) / 2 ∧ (2 * mc - 2) / 2 ≤ mc - 1)]
          have hd : (2 * mc - 2) / 2 = mc - 1 := by omega
          rw [hd]
        · rw [if_neg h3]
          by_cases h4 : p % 2 = 0
          · rw [if_pos h4, if_pos h4,
              if_pos (by omega : 1 ≤ p / 2 ∧ p / 2 ≤ mc - 1)]
          · rw [if_neg h4, if_neg h4,
              if_pos (by omega : 1 ≤ p / 2 ∧ p / 2 ≤ mc - 1),
              if_pos (by omega : 1 ≤ p / 2 + 1 ∧ p / 2 + 1 ≤ mc - 1)]

theorem cPVal_eq_interp (mc : ℕ) (hmc : 1 ≤ mc) (v : ℕ → ℚ) (p : ℕ)
    (hp : p ≤ 2 * (mc + 1)) :
    MeshB.cPVal mc v p
      = if p % 2 = 0 then interiorMask 1 mc v (p / 2)
        else 0.5 * (interiorMask 1 mc v (p / 2) + interiorMask 1 mc v (p / 2 + 1)) := by
  unfold MeshB.cPVal interiorMask
  by_cases h0 : p = 0 ∨ 2 * mc + 2 ≤ p
  · rw [if_pos h0]
    have hpe : p = 0 ∨ p = 2 * mc + 2 := by omega
    rcases hpe with h | h <;> subst h
    · rw [if_pos (by omega : 0 % 2 = 0), if_neg (by omega : ¬(1 ≤ 0 / 2 ∧ 0 / 2 ≤ mc))]
    · rw [if_pos (by omega : (2 * mc + 2) % 2 = 0),
        if_neg (by omega : ¬(1 ≤ (2 * mc + 2) / 2 ∧ (2 * mc + 2) / 2 ≤ mc))]
  · rw [if_neg h0]
    push_neg at h0
    obtain ⟨hne0, hlt⟩ := h0
    by_cases h1 : p = 1
    · subst h1
      rw [if_pos rfl, if_neg (by omega : ¬1 % 2 = 0),
        if_neg (by omega : ¬(1 ≤ 1 / 2 ∧ 1 / 2 ≤ mc)),
        if_pos (by omega : 1 ≤ 1 / 2 + 1 ∧ 1 / 2 + 1 ≤ mc)]
      norm_num
    · rw [if_neg h1]
      by_cases h2 : p = 2 * mc
      · subst h2
        rw [if_pos rfl, if_pos (by omega : (2 * mc) % 2 = 0),
          if_pos (by omega : 1 ≤ 2 * mc / 2 ∧ 2 * mc / 2 ≤ mc)]
        have hd : 2 * mc / 2 = mc := by omega
        rw [hd]
      · rw [if_neg h2]
        by_cases h3 : p = 2 * mc + 1
        · subst h3
          rw [if_pos rfl, if_neg (by omega : ¬(2 * mc + 1) % 2 = 0),
            if_pos (by omega : 1 ≤ (2 * mc + 1) / 2 ∧ (2 * mc + 1) / 2 ≤ mc),
            if_neg (by omega : ¬(1 ≤ (2 * mc + 1) / 2 + 1 ∧ (2 * mc + 1) / 2 + 1 ≤ mc))]
          have hd : (2 * mc + 1) / 2 = mc := by omega
          rw [hd]
          ring
        · rw [if_neg h3]
          by_cases h4 : p % 2 = 0
          · rw [if_pos h4, if_pos h4, if_pos (by omega : 1 ≤ p / 2 ∧ p / 2 ≤ mc)]
          · rw [if_neg h4, if_neg h4,
              if_pos (by omega : 1 ≤ p / 2 ∧ p / 2 ≤ mc),
              if_pos (by omega : 1 ≤ p / 2 + 1 ∧ p / 2 + 1 ≤ mc)]

theorem adjMeshA (mc : ℕ) (hmc : 2 ≤ mc) (u v : List ℚ)
    (hu : u.length = mc + 1) (hv : v.length = 2 * mc + 1) :
    dotP (MeshA.CR mc v) u = dotP v (MeshA.prolong mc u) := by
  have hCRlen : (MeshA.CR mc v).length = mc + 1 := List.length_ofFn _
  have hPlen : (MeshA.prolong mc u).length = 2 * mc + 1 := List.length_ofFn _
  rw [dotP_eq_sum, dotP_eq_sum, hCRlen, hPlen, hu, hv, min_self, min_self]
  have hL : ∀ q ∈ Finset.range (mc + 1),
      gd (MeshA.CR mc v) q * gd u q
        = (0.5 * gd v (2 * q - 1) + gd v (2 * q) + 0.5 * gd v (2 * q + 1))
            * interiorMask 1 (mc - 1) (gd u) q := by
    intro q hq
    have hqlt : q < mc + 1 := Finset.mem_range.mp hq
    simp only [MeshA.CR]
    rw [gd_ofFn, dif_pos hqlt]
    unfold MeshA.CRVal interiorMask
    by_cases hc : 1 ≤ q ∧ q ≤ mc - 1
    · rw [if_pos hc, if_pos hc]
    · rw [if_neg hc, if_neg hc, zero_mul, mul_zero]
  have hR : ∀ p ∈ Finset.range (2 * mc + 1),
      gd v p * gd (MeshA.prolong mc u) p
        = gd v p * (if p % 2 = 0 then interiorMask 1 (mc - 1) (gd u) (p / 2)
            else 0.5 * (interiorMask 1 (mc - 1) (gd u) (p / 2)
              + interiorMask 1 (mc - 1) (gd u) (p / 2 + 1))) := by
    intro p hp
    have hplt : p < 2 * mc + 1 := Finset.mem_range.mp hp
    simp only [MeshA.prolong]
    rw [gd_ofFn, dif_pos hplt]
    rw [prolongVal_eq_interp mc hmc (gd u) p (by omega)]
  rw [Finset.sum_congr rfl hL, Finset.sum_congr rfl hR]
  rw [pairing_core mc (gd v) (interiorMask 1 (mc - 1) (gd u))
    (by unfold interiorMask; rw [if_neg (by omega)])
    (by unfold interiorMask; rw [if_neg (by omega)])]

theorem adjMeshB (mc : ℕ) (hmc : 1 ≤ mc) (u v : List ℚ)
    (hu : u.length = mc + 2) (hv : v.length = 2 * mc + 3) :
    dotP (MeshB.cR mc v) u = dotP v (MeshB.cP mc u) := by
  have hCRlen : (MeshB.cR mc v).length = mc + 2 := List.length_ofFn _
  have hPlen : (MeshB.cP mc u).length = 2 * mc + 3 := List.length_ofFn _
  rw [dotP_eq_sum, dotP_eq_sum, hCRlen, hPlen, hu, hv, min_self, min_self]
  have e1 : mc + 2 = (mc + 1) + 1 := by ring
  have e2 : 2 * mc + 3 = 2 * (mc + 1) + 1 := by ring
  rw [e1, e2]
  have hL : ∀ q ∈ Finset.range ((mc + 1) + 1),
      gd (MeshB.cR mc v) q * gd u q
        = (0.5 * gd v (2 * q - 1) + gd v (2 * q) + 0.5 * gd v (2 * q + 1))
            * interiorMask 1 mc (gd u) q := by
    intro q hq
    have hqlt : q < mc + 2 := by have := Finset.mem_range.mp hq; omega
    simp only [MeshB.cR]
    rw [gd_ofFn, dif_pos hqlt]
    unfold MeshB.cRVal interiorMask
    by_cases hc : 1 ≤ q ∧ q ≤ mc
    · rw [if_pos hc, if_pos hc]
    · rw [if_neg hc, if_neg hc, zero_mul, mul_zero]
  have hR : ∀ p ∈ Finset.range (2 * (mc + 1) + 1),
      gd v p * gd (MeshB.cP mc u) p
        = gd v p * (if p % 2 = 0 then interiorMask 1 mc (gd u) (p / 2)
            else 0.5 * (interiorMask 1 mc (gd u) (p / 2)
              + interiorMask 1 mc (gd u) (p / 2 + 1))) := by
    intro p hp
    have hplt : p < 2 * mc + 3 := by have := Finset.mem_range.mp hp; omega
    simp only [MeshB.cP]
    rw [gd_ofFn, dif_pos hplt]
    rw [cPVal_eq_interp mc hmc (gd u) p (by omega)]
  rw [Finset.sum_congr rfl hL, Finset.sum_congr rfl hR]
  rw [pairing_core (mc + 1) (gd v) (interiorMask 1 mc (gd u))
    (by unfold interiorMask; rw [if_neg (by omega)])
    (by unfold interiorMask; rw [if_neg (by omega)])]

/-- C3: adjointness of the transfer operators.  For every level k > 0 (in
both mesh conventions), every vector u on level k-1 and every functional v
on level k, the discrete inner product of the canonical restriction of v
with u equals the discrete inner product of v with the prolongation of u;
over exact rational arithmetic the equality is exact, hence within any
floating tolerance. -/
theorem C3_transfer_adjoint :
    (∀ (k : ℕ) (u v : List ℚ), 0 < k →
        u.length = MeshA.mcoarser k + 1 → v.length = MeshA.m k + 1 →
        dotP (MeshA.CR (MeshA.mcoarser k) v) u
          = dotP v (MeshA.prolong (MeshA.mcoarser k) u))
  ∧ (∀ (j : ℕ) (u v : List ℚ), 0 < j →
        u.length = MeshB.mcoarser j + 2 → v.length = MeshB.m j + 2 →
        dotP (MeshB.cR (MeshB.mcoarser j) v) u
          = dotP v (MeshB.cP (MeshB.mcoarser j) u)) := by
  constructor
  · intro k u v hk hu hv
    have h2 : 2 ≤ 2 ^ k := by
      calc 2 = 2 ^ 1 := by norm_num
        _ ≤ 2 ^ k := Nat.pow_le_pow_right (by norm_num) hk
    have hm : MeshA.m k = 2 * MeshA.mcoarser k := by
      unfold MeshA.m MeshA.mcoarser
      rw [pow_succ]
      ring
    exact adjMeshA (MeshA.mcoarser k) h2 u v hu (by rw [hv, hm])
  · intro j u v hj hu hv
    have h2 : 2 ≤ 2 ^ j := by
      calc 2 = 2 ^ 1 := by norm_num
        _ ≤ 2 ^ j := Nat.pow_le_pow_right (by norm_num) hj
    have hp : 2 ^ (j + 1) = 2 * 2 ^ j := by rw [pow_succ]; ring
    have hmc : 1 ≤ MeshB.mcoarser j := by unfold MeshB.mcoarser; omega
    have hm : MeshB.m j + 2 = 2 * MeshB.mcoarser j + 3 := by
      unfold MeshB.m MeshB.mcoarser
      omega
    exact adjMeshB (MeshB.mcoarser j) hmc u v hu (by rw [hv, hm])

/-- Witness for C3 at k = 1 with concrete vectors. -/
theorem C3_transfer_adjoint_witness :
    dotP (MeshA.CR (MeshA.mcoarser 1) [3, 1, 4, 1, 5]) [2, 7, 2]
      = dotP [3, 1, 4, 1, 5] (MeshA.prolong (MeshA.mcoarser 1) [2, 7, 2]) :=
  C3_transfer_adjoint.1 1 [2, 7, 2] [3, 1, 4, 1, 5] (by decide) (by decide) (by decide)

/-- C4: for every fine vector of valid length and every coarse interior
index q (in both mesh conventions), the monotone restriction value at q is
exactly max(v[2q-1], v[2q], v[2q+1]), hence at least each of the three
contributing fine values. -/
theorem C4_monotone_restriction_max :
    (∀ (mc : ℕ) (v : List ℚ) (q : ℕ), 2 ≤ mc → v.length = 2 * mc + 1 →
        1 ≤ q → q ≤ mc - 1 →
        gd (MeshA.MR mc v) q
            = max (max (gd v (2 * q - 1)) (gd v (2 * q))) (gd v (2 * q + 1))
          ∧ gd v (2 * q - 1) ≤ gd (MeshA.MR mc v) q
          ∧ gd v (2 * q) ≤ gd (MeshA.MR mc v) q
          ∧ gd v (2 * q + 1) ≤ gd (MeshA.MR mc v) q)
  ∧ (∀ (mc : ℕ) (v : List ℚ) (q : ℕ), 1 ≤ mc → v.length = 2 * mc + 3 →
        1 ≤ q → q ≤ mc →
        gd (MeshB.mR mc v) q
            = max (max (gd v (2 * q - 1)) (gd v (2 * q))) (gd v (2 * q + 1))
          ∧ gd v (2 * q - 1) ≤ gd (MeshB.mR mc v) q
          ∧ gd v (2 * q) ≤ gd (MeshB.mR mc v) q
          ∧ gd v (2 * q + 1) ≤ gd (MeshB.mR mc v) q) := by
  constructor
  · intro mc v q hmc hv hq1 hq2
    have heq : gd (MeshA.MR mc v) q
        = max (max (gd v (2 * q - 1)) (gd v (2 * q))) (gd v (2 * q + 1)) := by
      simp only [MeshA.MR]
      rw [gd_ofFn, dif_pos (by omega : q < mc + 1)]
      unfold MeshA.MRVal
      rw [if_neg (by omega : ¬q = 0), if_neg (by omega : ¬q = mc)]
    refine ⟨heq, ?_, ?_, ?_⟩ <;> rw [heq]
    · exact le_trans (le_max_left _ _) (le_max_left _ _)
    · exact le_trans (le_max_right _ _) (le_max_left _ _)
    · exact le_max_right _ _
  · intro mc v q hmc hv hq1 hq2
    have heq : gd (MeshB.mR mc v) q
        = max (max (gd v (2 * q - 1)) (gd v (2 * q))) (gd v (2 * q + 1)) := by
      simp only [MeshB.mR]
      rw [gd_ofFn, dif_pos (by omega : q < mc + 2)]
      unfold MeshB.mRVal
      rw [if_pos ⟨hq1, hq2⟩]
    refine ⟨heq, ?_, ?_, ?_⟩ <;> rw [heq]
    · exact le_trans (le_max_left _ _) (le_max_left _ _)
    · exact le_trans (le_max_right _ _) (le_max_left _ _)
    · exact le_max_right _ _

/-- Witness for C4 at mc = 2, q = 1 with a concrete vector. -/
theorem C4_monotone_restriction_max_witness :
    gd (MeshA.MR 2 [5, 3, 9, 2, 7]) 1
        = max (max (gd [5, 3, 9, 2, 7] 1) (gd [5, 3, 9, 2, 7] 2)) (gd [5, 3, 9, 2, 7] 3)
      ∧ gd [5, 3, 9, 2, 7] 1 ≤ gd (MeshA.MR 2 [5, 3, 9, 2, 7]) 1
      ∧ gd [5, 3, 9, 2, 7] 2 ≤ gd (MeshA.MR 2 [5, 3, 9, 2, 7]) 1
      ∧ gd [5, 3, 9, 2, 7] 3 ≤ gd (MeshA.MR 2 [5, 3, 9, 2, 7]) 1 :=
  C4_monotone_restriction_max.1 2 [5, 3, 9, 2, 7] 1
    (by decide) (by decide) (by decide) (by decide)

/-- C8: prolongation never reads the boundary entries of the coarse input (two
valid-length coarse vectors agreeing at all interior nodes prolong to
identical fine vectors, in both conventions), and the returned fine vector
always has zero boundary values. -/
theorem C8_prolong_ignores_boundary :
    (∀ (mc : ℕ) (v w : List ℚ), 2 ≤ mc →
        v.length = mc + 1 → w.length = mc + 1 →
        (∀ i, 1 ≤ i → i ≤ mc - 1 → gd v i = gd w i) →
        MeshA.prolong mc v = MeshA.prolong mc w)
  ∧ (∀ (mc : ℕ) (v : List ℚ),
        gd (MeshA.prolong mc v) 0 = 0 ∧ gd (MeshA.prolong mc v) (2 * mc) = 0)
  ∧ (∀ (mc : ℕ) (v w : List ℚ), 1 ≤ mc →
        v.length = mc + 2 → w.length = mc + 2 →
        (∀ i, 1 ≤ i → i ≤ mc → gd v i = gd w i) →
        MeshB.cP mc v = MeshB.cP mc w)
  ∧ (∀ (mc : ℕ) (v : List ℚ),
        gd (MeshB.cP mc v) 0 = 0 ∧ gd (MeshB.cP mc v) (2 * mc + 2) = 0) := by
  refine ⟨?_, ?_, ?_, ?_⟩
  · intro mc v w hmc hv hw hagree
    unfold MeshA.prolong
    refine congrArg List.ofFn (funext fun p => ?_)
    have hp := p.isLt
    unfold MeshA.prolongVal
    split_ifs <;> try rfl
    · rw [hagree 1 (by omega) (by omega)]
    · rw [hagree (mc - 1) (by omega) (by omega)]
    · rw [hagree (mc - 1) (by omega) (by omega)]
    · rw [hagree ((p : ℕ) / 2) (by omega) (by omega)]
    · rw [hagree ((p : ℕ) / 2) (by omega) (by omega),
        hagree ((p : ℕ) / 2 + 1) (by omega) (by omega)]
  · intro mc v
    constructor
    · simp only [MeshA.prolong]
      rw [gd_ofFn, dif_pos (by omega : 0 < 2 * mc + 1)]
      unfold MeshA.prolongVal
      rw [if_pos (Or.inl rfl)]
    · simp only [MeshA.prolong]
      rw [gd_ofFn, dif_pos (by omega : 2 * mc < 2 * mc + 1)]
      unfold MeshA.prolongVal
      rw [if_pos (Or.inr rfl)]
  · intro mc v w hmc hv hw hagree
    unfold MeshB.cP
    refine congrArg List.ofFn (funext fun p => ?_)
    have hp := p.isLt
    unfold MeshB.cPVal
    split_ifs <;> try rfl
    · rw [hagree 1 (by omega) (by omega)]
    · rw [hagree mc (by omega) (by omega)]
    · rw [hagree mc (by omega) (by omega)]
    · rw [hagree ((p : ℕ) / 2) (by omega) (by omega)]
    · rw [hagree ((p : ℕ) / 2) (by omega) (by omega),
        hagree ((p : ℕ) / 2 + 1) (by omega) (by omega)]
  · intro mc v
    constructor
    · simp only [MeshB.cP]
      rw [gd_ofFn, dif_pos (by omega : 0 < 2 * mc + 3)]
      unfold MeshB.cPVal
      rw [if_pos (Or.inl rfl)]
    · simp only [MeshB.cP]
      rw [gd_ofFn, dif_pos (by omega : 2 * mc + 2 < 2 * mc + 3)]
      unfold MeshB.cPVal
      rw [if_pos (Or.inr (le_refl (2 * mc + 2)))]

/-- Witness for C8 at mc = 2: the two inputs differ only in their boundary
entries and prolong identically. -/
theorem C8_prolong_ignores_boundary_witness :
    MeshA.prolong 2 [9, 1, 5] = MeshA.prolong 2 [4, 1, 7] :=
  C8_prolong_ignores_boundary.1 2 [9, 1, 5] [4, 1, 7] (by decide) (by decide) (by decide)
    (fun i h1 h2 => by
      have hi : i = 1 := by omega
      rw [hi]
      rfl)

/-- C10: a wrong-length vector passed to residual of src/py/meshlevel.py
fails, but with a NameError for the undefined name v (referenced by the
message expression of the assertion), not with the formatted length-mismatch
assertion that checklen-style checks produce. -/
theorem C10_residual_length_NameError :
    ∀ (k : ℕ) (u : List ℚ) (f : ℚ → ℚ), u.length ≠ MeshA.m k + 1 →
      MeshA.residual k u f = .error (.nameError "v") := by
  intro k u f hne
  unfold MeshA.residual
  rw [if_neg hne]

/-- Witness for C10 at k = 0 with an empty vector. -/
theorem C10_residual_length_NameError_witness :
    MeshA.residual 0 [] (fun x => x) = .error (.nameError "v") :=
  C10_residual_length_NameError 0 [] (fun x => x) (by decide)

theorem interior_sq_sum (u : List ℚ) :
    (((u.drop 1).dropLast).map fun x => x * x).sum
      = ∑ p ∈ Finset.Ico 1 (u.length - 1), gd u p * gd u p := by
  rw [map_sum_sq]
  have hlen : ((u.drop 1).dropLast).length = u.length - 2 := by
    simp [List.length_dropLast, List.length_drop]
    omega
  rw [hlen, Finset.sum_Ico_eq_sum_range]
  have he : u.length - 1 - 1 = u.length - 2 := by omega
  rw [he]
  apply Finset.sum_congr rfl
  intro i hi
  have hilt : i < u.length - 2 := Finset.mem_range.mp hi
  rw [interior_gd u i hilt]
  have h1 : 1 + i = i + 1 := by omega
  rw [h1]

/-- Counterexample for C6: the l2norm of src/py/meshlevel.py performs no
length check, so at level k = 1 (where the valid length is 5) the
3-element vector [1, 2, 3] is accepted and a value is returned instead of
any failure. -/
theorem C6_counterexample :
    ([1, 2, 3] : List ℚ).length ≠ MeshA.m 1 + 1
      ∧ MeshA.l2normSq 1 [1, 2, 3] = some (9 / 4) := by
  constructor
  · decide
  · have h1 : MeshA.l2normSq 1 [1, 2, 3]
        = some (MeshA.h 1 * (0.5 * 1 * 1 + (([2] : List ℚ).map fun x => x * x).sum
            + 0.5 * 3 * 3)) := rfl
    rw [h1]
    refine congrArg some ?_
    norm_num [MeshA.h, MeshA.m]

/-- C6 amended: the 1D variant (src/py/1D/meshlevel.py) checks the length
and fails with the formatted length-mismatch assertion, returning the
trapezoid-rule value only for correct-length input; the src/py/meshlevel.py
variant performs no length check and returns the trapezoid-rule value
computed from whatever nonempty vector it is given.  The value shown is
the square of the norm; the code returns its square root. -/
theorem C6_l2norm_length_check :
    (∀ (j : ℕ) (u : List ℚ), u.length ≠ MeshB.m j + 2 →
        MeshB.l2normSq j u = .error (.lengthMismatch u.length (MeshB.m j + 2)))
  ∧ (∀ (j : ℕ) (u : List ℚ), u.length = MeshB.m j + 2 →
        MeshB.l2normSq j u = .ok (MeshB.h j * (0.5 * gd u 0 * gd u 0
          + (∑ p ∈ Finset.Ico 1 (MeshB.m j + 1), gd u p * gd u p)
          + 0.5 * gd u (MeshB.m j + 1) * gd u (MeshB.m j + 1))))
  ∧ (∀ (k : ℕ) (u : List ℚ), u ≠ [] →
        MeshA.l2normSq k u = some (MeshA.h k * (0.5 * gd u 0 * gd u 0
          + (∑ p ∈ Finset.Ico 1 (u.length - 1), gd u p * gd u p)
          + 0.5 * gd u (u.length - 1) * gd u (u.length - 1)))) := by
  refine ⟨?_, ?_, ?_⟩
  · intro j u hne
    unfold MeshB.l2normSq MeshB.checklen
    simp only [Bool.false_eq_true, if_false]
    rw [if_neg hne]
    rfl
  · intro j u hlen
    unfold MeshB.l2normSq MeshB.checklen
    simp only [Bool.false_eq_true, if_false]
    rw [if_pos hlen]
    have he1 : u.length - 1 = MeshB.m j + 1 := by omega
    rw [show (do
        let _ ← Except.ok (ε := PyError) ()
        pure (MeshB.h j * (0.5 * gd u 0 * gd u 0
          + (((u.drop 1).dropLast).map fun x => x * x).sum
          + 0.5 * u.getLastD 0 * u.getLastD 0)))
      = Except.ok (MeshB.h j * (0.5 * gd u 0 * gd u 0
          + (((u.drop 1).dropLast).map fun x => x * x).sum
          + 0.5 * u.getLastD 0 * u.getLastD 0)) from rfl]
    rw [interior_sq_sum, getLastD_gd, he1]
  · intro k u hne
    match u, hne with
    | x :: xs, _ =>
      unfold MeshA.l2normSq
      rw [interior_sq_sum, getLastD_gd]

/-- Witness for C6 amended at j = 0 with an empty vector. -/
theorem C6_l2norm_length_check_witness :
    MeshB.l2normSq 0 [] = .error (.lengthMismatch 0 (MeshB.m 0 + 2)) :=
  C6_l2norm_length_check.1 0 [] (by decide)

/-- Counterexample for C7: at level k = 0 with u = [0,0,0], obstacle
phi = [0,5,0] and f = -4, node 1 has u five units below the obstacle (not
within tolerance 1e-10 of it), yet inactiveresidual clamps there: the
residual value -2 is replaced by 0. -/
theorem C7_counterexample :
    MeshA.residual 0 [0, 0, 0] (fun _ => -4) = .ok [0, -2, 0]
  ∧ MeshA.inactiveresidual 0 [0, 0, 0] (fun _ => -4) [0, 5, 0] = .ok [0, 0, 0]
  ∧ ¬(|gd [0, 0, 0] 1 - gd [0, 5, 0] 1| ≤ MeshA.osreps)
  ∧ gd [0, 0, 0] 1 < gd [0, 5, 0] 1 + MeshA.osreps := by
  have hres : MeshA.residual 0 [0, 0, 0] (fun _ => -4) = .ok [0, -2, 0] := by
    unfold MeshA.residual
    rw [if_pos (by decide)]
    refine congrArg Except.ok ?_
    norm_num [List.ofFn_succ, MeshA.m, MeshA.h, gd]
  refine ⟨hres, ?_, ?_, ?_⟩
  · unfold MeshA.inactiveresidual
    rw [hres]
    dsimp only
    rw [if_pos (by decide : ([0, 5, 0] : List ℚ).length = ([0, 0, 0] : List ℚ).length)]
    refine congrArg Except.ok ?_
    norm_num [List.ofFn_succ, MeshA.m, gd, MeshA.osreps]
  · norm_num [gd, MeshA.osreps]
  · norm_num [gd, MeshA.osreps]

/-- C7 amended: for matching lengths, inactiveresidual returns the
residual clamped to nonnegative exactly at the nodes where
u[p] < phi[p] + 1e-10 — that is, wherever u does not exceed the obstacle
by at least the tolerance, which includes every node at or below the
obstacle, not only nodes within 1e-10 of it — and the residual value
unchanged at every other node. -/
theorem C7_inactiveresidual_clamp :
    ∀ (k : ℕ) (u : List ℚ) (f : ℚ → ℚ) (phi : List ℚ),
      u.length = MeshA.m k + 1 → phi.length = u.length →
      ∃ r, MeshA.residual k u f = .ok r
        ∧ MeshA.inactiveresidual k u f phi
            = .ok (List.ofFn fun p : Fin (MeshA.m k + 1) =>
                if gd u p < gd phi p + MeshA.osreps then max (gd r p) 0
                else gd r p) := by
  intro k u f phi hu hphi
  have hres : MeshA.residual k u f
      = .ok (List.ofFn fun p : Fin (MeshA.m k + 1) =>
          if 1 ≤ (p : ℕ) ∧ (p : ℕ) ≤ MeshA.m k - 1 then
            MeshA.h k / 2 * (f ((((p : ℕ) : ℚ) - 0.5) * MeshA.h k)
                + f ((((p : ℕ) : ℚ) + 0.5) * MeshA.h k))
              - 1 / MeshA.h k * (2 * gd u p - gd u ((p : ℕ) - 1) - gd u ((p : ℕ) + 1))
          else 0) := by
    unfold MeshA.residual
    rw [if_pos hu]
  refine ⟨_, hres, ?_⟩
  unfold MeshA.inactiveresidual
  rw [hres]
  dsimp only
  rw [if_pos hphi]

/-- Witness for C7 amended at k = 0 with concrete vectors. -/
theorem C7_inactiveresidual_clamp_witness :
    ∃ r, MeshA.residual 0 [0, 0, 0] (fun _ => -4) = .ok r
      ∧ MeshA.inactiveresidual 0 [0, 0, 0] (fun _ => -4) [0, 5, 0]
          = .ok (List.ofFn fun p : Fin (MeshA.m 0 + 1) =>
              if gd [0, 0, 0] p < gd [0, 5, 0] p + MeshA.osreps then max (gd r p) 0
              else gd r p) :=
  C7_inactiveresidual_clamp 0 [0, 0, 0] (fun _ => -4) [0, 5, 0] (by decide) (by decide)

/-- C1: for every FAS V-cycle call with k above the coarsest level, after
the `down` forward pre-smoothing sweeps the engine computes the fine
residual rfine = ell - F(h_k, u1), restricts Ru = Rfw(u1), forms the
coarse right-hand side CR(rfine) + F(h_(k-1), Ru), recurses on level k-1
starting from Ru, and corrects by adding P(ucoarse - Ru) before the `up`
backward post-smoothing sweeps. -/
theorem C1_fas_vcycle_structure
    (kcoarse coarse down up : ℕ) (F : ℚ → FAS.Vec → FAS.Vec)
    (sweepF sweepB : ℕ → FAS.Vec → FAS.Vec → FAS.Vec)
    (P Rfw CRop : ℕ → FAS.Vec → FAS.Vec) (hlev : ℕ → ℚ)
    (k : ℕ) (hk : kcoarse < k) (u ell : FAS.Vec) (wu : FAS.WU) :
    FAS.vcycle kcoarse coarse down up F sweepF sweepB P Rfw CRop hlev k u ell wu
      = (let u1 := (fun w => sweepF k w ell)^[down] u
         let rfine := ell - F (hlev k) u1
         let Ru := Rfw k u1
         let coarseell := CRop k rfine + F (hlev (k - 1)) Ru
         Except.map
           (fun r => ((fun w => sweepB k w ell)^[up] (u1 + P k (r.1 - Ru)),
             FAS.bump r.2 k up))
           (FAS.vcycle kcoarse coarse down up F sweepF sweepB P Rfw CRop hlev
             (k - 1) Ru coarseell (FAS.bump wu k down))) := by
  obtain ⟨k', rfl⟩ : ∃ k', k = k' + 1 := ⟨k - 1, by omega⟩
  simp only [FAS.vcycle]
  rw [if_neg (by omega : ¬(k' + 1 = kcoarse)), if_neg (by omega : ¬(k' + 1 < kcoarse))]
  simp only [Nat.add_sub_cancel]
  cases hrec : FAS.vcycle kcoarse coarse down up F sweepF sweepB P Rfw CRop hlev k'
      (Rfw (k' + 1) ((fun w => sweepF (k' + 1) w ell)^[down] u))
      (CRop (k' + 1) (ell - F (hlev (k' + 1)) ((fun w => sweepF (k' + 1) w ell)^[down] u))
        + F (hlev k') (Rfw (k' + 1) ((fun w => sweepF (k' + 1) w ell)^[down] u)))
      (FAS.bump wu (k' + 1) down) with
  | error e => rfl
  | ok p => rfl

/-- Witness for C1 at kcoarse = 0, k = 1 with trivial collaborators. -/
theorem C1_fas_vcycle_structure_witness :
    FAS.vcycle 0 1 1 0 (fun _ _ => fun _ => 0) (fun _ w _ => w) (fun _ w _ => w)
        (fun _ v => v) (fun _ v => v) (fun _ v => v) (fun _ => 1)
        1 (fun _ => 0) (fun _ => 0) (fun _ => 0)
      = (let u1 := (fun w => (fun _ w _ => w : ℕ → FAS.Vec → FAS.Vec → FAS.Vec) 1 w
            (fun _ => 0))^[1] (fun _ => 0)
         let rfine := (fun _ => (0 : ℚ)) - (fun _ _ => fun _ => (0 : ℚ)) ((fun _ => (1 : ℚ)) 1) u1
         let Ru := (fun _ v => v : ℕ → FAS.Vec → FAS.Vec) 1 u1
         let coarseell := (fun _ v => v : ℕ → FAS.Vec → FAS.Vec) 1 rfine
           + (fun _ _ => fun _ => (0 : ℚ)) ((fun _ => (1 : ℚ)) (1 - 1)) Ru
         Except.map
           (fun r => ((fun w => (fun _ w _ => w : ℕ → FAS.Vec → FAS.Vec → FAS.Vec) 1 w
               (fun _ => 0))^[0] (u1 + (fun _ v => v : ℕ → FAS.Vec → FAS.Vec) 1 (r.1 - Ru)),
             FAS.bump r.2 1 0))
           (FAS.vcycle 0 1 1 0 (fun _ _ => fun _ => 0) (fun _ w _ => w) (fun _ w _ => w)
             (fun _ v => v) (fun _ v => v) (fun _ v => v) (fun _ => 1)
             (1 - 1) Ru coarseell (FAS.bump (fun _ => 0) 1 1))) :=
  C1_fas_vcycle_structure 0 1 1 0 (fun _ _ => fun _ => 0) (fun _ w _ => w) (fun _ w _ => w)
    (fun _ v => v) (fun _ v => v) (fun _ v => v) (fun _ => 1)
    1 (by decide) (fun _ => 0) (fun _ => 0) (fun _ => 0)

theorem vcycle_wu_V10 (F : ℚ → FAS.Vec → FAS.Vec)
    (sweepF sweepB : ℕ → FAS.Vec → FAS.Vec → FAS.Vec)
    (P Rfw CRop : ℕ → FAS.Vec → FAS.Vec) (hlev : ℕ → ℚ) :
    ∀ (k : ℕ) (u ell : FAS.Vec) (wu : FAS.WU), ∃ u',
      FAS.vcycle 0 1 1 0 F sweepF sweepB P Rfw CRop hlev k u ell wu
        = .ok (u', fun j => wu j + if j ≤ k then 1 else 0) := by
  intro k
  induction k with
  | zero =>
    intro u ell wu
    refine ⟨(fun w => sweepF 0 w ell)^[1] u, ?_⟩
    simp only [FAS.vcycle, if_pos rfl, FAS.coarsesolve]
    refine congrArg Except.ok ?_
    refine congrArg (Prod.mk _) ?_
    funext j
    unfold FAS.bump
    by_cases hj : j = 0
    · subst hj; norm_num
    · rw [if_neg hj, if_neg (by omega)]
      norm_num
  | succ k ih =>
    intro u ell wu
    obtain ⟨uc, hc⟩ := ih
      (Rfw (k + 1) ((fun w => sweepF (k + 1) w ell)^[1] u))
      (CRop (k + 1) (ell - F (hlev (k + 1)) ((fun w => sweepF (k + 1) w ell)^[1] u))
        + F (hlev k) (Rfw (k + 1) ((fun w => sweepF (k + 1) w ell)^[1] u)))
      (FAS.bump wu (k + 1) ((1 : ℕ) : ℚ))
    refine ⟨(fun w => sweepB (k + 1) w ell)^[0]
      ((fun w => sweepF (k + 1) w ell)^[1] u
        + P (k + 1) (uc - Rfw (k + 1) ((fun w => sweepF (k + 1) w ell)^[1] u))), ?_⟩
    simp only [FAS.vcycle]
    rw [if_neg (by omega : ¬(k + 1 = 0)), if_neg (by omega : ¬(k + 1 < 0))]
    rw [hc]
    dsimp only
    refine congrArg Except.ok ?_
    refine congrArg (Prod.mk _) ?_
    funext j
    simp only [FAS.bump]
    by_cases hj : j = k + 1
    · subst hj
      have h1 : ¬(k + 1 ≤ k) := by omega
      simp [h1]
    · have h2 : (j ≤ k) ↔ (j ≤ k + 1) := by omega
      simp [hj, ← h2]

/-- C5: wutotal returns the weighted sum of wu[k] with weight
2^-(kfine-k) over k = 0..kfine, and after one V(1,0) cycle with one
coarse sweep on an L-level hierarchy (kcoarse = 0, kfine = L-1, zeroed
counters) every level records exactly one sweep and the total equals the
geometric sum of 2^-(L-1-k) times the one sweep per level. -/
theorem C5_work_units :
    (∀ (kfine : ℕ) (wu : FAS.WU),
        FAS.wutotal kfine wu
          = ∑ k ∈ Finset.range (kfine + 1), wu k * ((2 : ℚ) ^ (kfine - k))⁻¹)
  ∧ (∀ (L : ℕ), 1 ≤ L →
      ∀ (F : ℚ → FAS.Vec → FAS.Vec) (sweepF sweepB : ℕ → FAS.Vec → FAS.Vec → FAS.Vec)
        (P Rfw CRop : ℕ → FAS.Vec → FAS.Vec) (hlev : ℕ → ℚ) (u ell : FAS.Vec),
      ∃ u' w, FAS.vcycle 0 1 1 0 F sweepF sweepB P Rfw CRop hlev (L - 1) u ell (fun _ => 0)
          = .ok (u', w)
        ∧ (∀ k, k ≤ L - 1 → w k = 1)
        ∧ FAS.wutotal (L - 1) w
            = ∑ k ∈ Finset.range L, ((2 : ℚ) ^ (L - 1 - k))⁻¹ * 1) := by
  constructor
  · intro kfine wu
    unfold FAS.wutotal
    rw [← Finset.sum_range_reflect (fun k => wu k * ((2 : ℚ) ^ (kfine - k))⁻¹) (kfine + 1)]
    apply Finset.sum_congr rfl
    intro j hj
    have hjle : j < kfine + 1 := Finset.mem_range.mp hj
    have e1 : kfine + 1 - 1 - j = kfine - j := by omega
    have e2 : kfine - (kfine - j) = j := by omega
    rw [e1, e2, div_eq_mul_inv]
  · intro L hL F sweepF sweepB P Rfw CRop hlev u ell
    obtain ⟨u', hv⟩ := vcycle_wu_V10 F sweepF sweepB P Rfw CRop hlev (L - 1) u ell (fun _ => 0)
    refine ⟨u', _, hv, ?_, ?_⟩
    · intro k hk
      show (0 : ℚ) + (if k ≤ L - 1 then 1 else 0) = 1
      rw [if_pos hk]
      norm_num
    · unfold FAS.wutotal
      have hrange : L - 1 + 1 = L := by omega
      rw [hrange]
      rw [← Finset.sum_range_reflect (fun k => ((2 : ℚ) ^ (L - 1 - k))⁻¹ * 1) L]
      apply Finset.sum_congr rfl
      intro j hj
      have hjle : j < L := Finset.mem_range.mp hj
      have hb : (fun j => (0 : ℚ) + if j ≤ L - 1 then 1 else 0) (L - 1 - j)
          = 0 + if L - 1 - j ≤ L - 1 then 1 else 0 := rfl
      rw [hb, if_pos (by omega : L - 1 - j ≤ L - 1)]
      have e1 : L - 1 - (L - 1 - j) = j := by omega
      rw [e1]
      norm_num

theorem cdVcycle_coarse_eq
    (pgs : ℕ → Bool → List ℚ → List ℚ → List ℚ → List ℚ × ℕ)
    (res : ℕ → List ℚ → List ℚ → List ℚ) (symmetric : Bool)
    (down up coarse : ℤ) (hguard : 1 ≤ down ∧ 0 ≤ up ∧ 1 ≤ coarse)
    (chi : ℕ → List ℚ) (F : List ℚ) (hF : F.length = MeshB.m 0 + 2) :
    SubsetDecomp.vcycle pgs res symmetric down up coarse 0 chi F
      = .ok ((SubsetDecomp.smoother pgs symmetric 0 coarse.toNat
            (List.replicate (MeshB.m 0 + 2) 0) F (chi 0)).1,
          (SubsetDecomp.smoother pgs symmetric 0 coarse.toNat
            (List.replicate (MeshB.m 0 + 2) 0) F (chi 0)).2, chi) := by
  rw [SubsetDecomp.vcycle]
  rw [if_neg (not_not_intro hguard), if_neg (fun hne => hne hF)]

theorem cdVcycle_step_eq
    (pgs : ℕ → Bool → List ℚ → List ℚ → List ℚ → List ℚ × ℕ)
    (res : ℕ → List ℚ → List ℚ → List ℚ) (symmetric : Bool)
    (down up coarse : ℤ) (hguard : 1 ≤ down ∧ 0 ≤ up ∧ 1 ≤ coarse)
    (j : ℕ) (hj : 0 < j) (chi : ℕ → List ℚ) (F : List ℚ)
    (hF : F.length = MeshB.m j + 2) :
    SubsetDecomp.vcycle pgs res symmetric down up coarse j chi F
      = (let mc := MeshB.mcoarser j
         let chiC := MeshB.mR mc (chi j)
         let chi1 := Function.update chi (j - 1) chiC
         let phi0 := List.zipWith (fun a b => a - b) (chi j) (MeshB.cP mc chiC)
         let phi := if 0 < up then phi0.map (fun x => x * 0.5) else phi0
         let s1 := SubsetDecomp.smoother pgs symmetric j down.toNat
             (List.replicate (MeshB.m j + 2) 0) F phi
         Except.map
           (fun r =>
             let v2 := List.zipWith (fun a b => a + b) s1.1 (MeshB.cP mc r.1)
             let s3 := if 0 < up then
                 SubsetDecomp.smoother pgs symmetric j up.toNat v2 F phi
               else (v2, 0)
             (s3.1, s1.2 + r.2.1 + s3.2, r.2.2))
           (SubsetDecomp.vcycle pgs res symmetric down up coarse (j - 1) chi1
             (MeshB.cR mc (res j s1.1 F)))) := by
  obtain ⟨j', rfl⟩ : ∃ j', j = j' + 1 := ⟨j - 1, by omega⟩
  rw [SubsetDecomp.vcycle]
  rw [if_neg (not_not_intro hguard), if_neg (fun hne => hne hF)]
  simp only [Nat.add_sub_cancel]
  cases hrec : SubsetDecomp.vcycle pgs res symmetric down up coarse j'
      (Function.update chi j' (MeshB.mR (MeshB.mcoarser (j' + 1)) (chi (j' + 1))))
      (MeshB.cR (MeshB.mcoarser (j' + 1))
        (res (j' + 1)
          (SubsetDecomp.smoother pgs symmetric (j' + 1) down.toNat
            (List.replicate (MeshB.m (j' + 1) + 2) 0) F
            (if 0 < up then
              (List.zipWith (fun a b => a - b) (chi (j' + 1))
                (MeshB.cP (MeshB.mcoarser (j' + 1))
                  (MeshB.mR (MeshB.mcoarser (j' + 1)) (chi (j' + 1))))).map
                (fun x => x * 0.5)
             else
              List.zipWith (fun a b => a - b) (chi (j' + 1))
                (MeshB.cP (MeshB.mcoarser (j' + 1))
                  (MeshB.mR (MeshB.mcoarser (j' + 1)) (chi (j' + 1)))))).1
          F)) with
  | error e => rfl
  | ok p => rfl

/-- C2: in the constraint-decomposition V-cycle, at every non-coarsest
level j the defect obstacle chi[j] is monotone-restricted to produce
chi[j-1], the local obstacle handed to the PGS smoother equals
chi[j] - P(chi[j-1]), and this local obstacle is multiplied by 0.5 exactly
when up-sweeps are configured (up > 0). -/
theorem C2_defect_obstacle_decomposition
    (pgs : ℕ → Bool → List ℚ → List ℚ → List ℚ → List ℚ × ℕ)
    (res : ℕ → List ℚ → List ℚ → List ℚ) (symmetric : Bool)
    (down up coarse : ℤ)
    (hdown : 1 ≤ down) (hup : 0 ≤ up) (hcoarse : 1 ≤ coarse)
    (j : ℕ) (hj : 0 < j) (chi : ℕ → List ℚ) (F : List ℚ)
    (hF : F.length = MeshB.m j + 2) :
    SubsetDecomp.vcycle pgs res symmetric down up coarse j chi F
      = (let mc := MeshB.mcoarser j
         let chiC := MeshB.mR mc (chi j)
         let chi1 := Function.update chi (j - 1) chiC
         let phi0 := List.zipWith (fun a b => a - b) (chi j) (MeshB.cP mc chiC)
         let phi := if 0 < up then phi0.map (fun x => x * 0.5) else phi0
         let s1 := SubsetDecomp.smoother pgs symmetric j down.toNat
             (List.replicate (MeshB.m j + 2) 0) F phi
         Except.map
           (fun r =>
             let v2 := List.zipWith (fun a b => a + b) s1.1 (MeshB.cP mc r.1)
             let s3 := if 0 < up then
                 SubsetDecomp.smoother pgs symmetric j up.toNat v2 F phi
               else (v2, 0)
             (s3.1, s1.2 + r.2.1 + s3.2, r.2.2))
           (SubsetDecomp.vcycle pgs res symmetric down up coarse (j - 1) chi1
             (MeshB.cR mc (res j s1.1 F)))) :=
  cdVcycle_step_eq pgs res symmetric down up coarse ⟨hdown, hup, hcoarse⟩ j hj chi F hF

/-- Witness for C2 at j = 1 with trivial collaborators and zero data. -/
theorem C2_defect_obstacle_decomposition_witness :
    SubsetDecomp.vcycle (fun _ _ v _ _ => (v, 0)) (fun _ v _ => v) false 1 0 1 1
        (fun _ => List.replicate 5 0) (List.replicate 5 0)
      = (let mc := MeshB.mcoarser 1
         let chiC := MeshB.mR mc ((fun _ => List.replicate 5 (0 : ℚ)) 1)
         let chi1 := Function.update (fun _ => List.replicate 5 (0 : ℚ)) (1 - 1) chiC
         let phi0 := List.zipWith (fun a b => a - b) ((fun _ => List.replicate 5 (0 : ℚ)) 1)
             (MeshB.cP mc chiC)
         let phi := if (0 : ℤ) < 0 then phi0.map (fun x => x * 0.5) else phi0
         let s1 := SubsetDecomp.smoother (fun _ _ v _ _ => (v, 0)) false 1 (1 : ℤ).toNat
             (List.replicate (MeshB.m 1 + 2) 0) (List.replicate 5 0) phi
         Except.map
           (fun r =>
             let v2 := List.zipWith (fun a b => a + b) s1.1 (MeshB.cP mc r.1)
             let s3 := if (0 : ℤ) < 0 then
                 SubsetDecomp.smoother (fun _ _ v _ _ => (v, 0)) false 1 (0 : ℤ).toNat v2
                   (List.replicate 5 0) phi
               else (v2, 0)
             (s3.1, s1.2 + r.2.1 + s3.2, r.2.2))
           (SubsetDecomp.vcycle (fun _ _ v _ _ => (v, 0)) (fun _ v _ => v) false 1 0 1 (1 - 1)
             chi1 (MeshB.cR mc ((fun _ (v : List ℚ) (_ : List ℚ) => v) 1 s1.1
               (List.replicate 5 0))))) :=
  C2_defect_obstacle_decomposition (fun _ _ v _ _ => (v, 0)) (fun _ v _ => v) false 1 0 1
    (by decide) (by decide) (by decide) 1 (by decide)
    (fun _ => List.replicate 5 0) (List.replicate 5 0) (by decide)

theorem cdVcycle_ok (pgs : ℕ → Bool → List ℚ → List ℚ → List ℚ → List ℚ × ℕ)
    (res : ℕ → List ℚ → List ℚ → List ℚ) (symmetric : Bool)
    (down coarse : ℤ) (hdown : 1 ≤ down) (hcoarse : 1 ≤ coarse) :
    ∀ (j : ℕ) (chi : ℕ → List ℚ) (F : List ℚ), F.length = MeshB.m j + 2 →
      ∃ out, SubsetDecomp.vcycle pgs res symmetric down 0 coarse j chi F = .ok out := by
  intro j
  induction j with
  | zero =>
    intro chi F hF
    exact ⟨_, cdVcycle_coarse_eq pgs res symmetric down 0 coarse
      ⟨hdown, le_refl 0, hcoarse⟩ chi F hF⟩
  | succ j' ih =>
    intro chi F hF
    rw [cdVcycle_step_eq pgs res symmetric down 0 coarse
      ⟨hdown, le_refl 0, hcoarse⟩ (j' + 1) (by omega) chi F hF]
    have hlen : (MeshB.cR (MeshB.mcoarser (j' + 1))
        ((fun ell => ell) (res (j' + 1)
          (SubsetDecomp.smoother pgs symmetric (j' + 1) down.toNat
            (List.replicate (MeshB.m (j' + 1) + 2) 0) F
            (List.zipWith (fun a b => a - b) (chi (j' + 1))
              (MeshB.cP (MeshB.mcoarser (j' + 1))
                (MeshB.mR (MeshB.mcoarser (j' + 1)) (chi (j' + 1)))))).1
          F))).length = MeshB.m j' + 2 := List.length_ofFn _
    obtain ⟨out, hout⟩ := ih
      (Function.update chi j' (MeshB.mR (MeshB.mcoarser (j' + 1)) (chi (j' + 1))))
      (MeshB.cR (MeshB.mcoarser (j' + 1))
        (res (j' + 1)
          (SubsetDecomp.smoother pgs symmetric (j' + 1) down.toNat
            (List.replicate (MeshB.m (j' + 1) + 2) 0) F
            (List.zipWith (fun a b => a - b) (chi (j' + 1))
              (MeshB.cP (MeshB.mcoarser (j' + 1))
                (MeshB.mR (MeshB.mcoarser (j' + 1)) (chi (j' + 1)))))).1
          F))
      (List.length_ofFn _)
    dsimp only
    rw [if_neg (by omega : ¬(0 : ℤ) < 0), Nat.add_sub_cancel]
    rw [hout]
    exact ⟨_, rfl⟩

/-- C9: the constraint-decomposition vcycle fails fast on every call with
down < 1, coarse < 1 or up < 0, and on every call whose right-hand-side
functional does not have length m + 2 for the level-j mesh; a request with
valid sweep counts, up = 0 included, and a well-sized functional always
returns a result. -/
theorem C9_vcycle_guards :
    (∀ (pgs : ℕ → Bool → List ℚ → List ℚ → List ℚ → List ℚ × ℕ)
        (res : ℕ → List ℚ → List ℚ → List ℚ) (symmetric : Bool)
        (down up coarse : ℤ) (j : ℕ) (chi : ℕ → List ℚ) (F : List ℚ),
        down < 1 ∨ up < 0 ∨ coarse < 1 →
        SubsetDecomp.vcycle pgs res symmetric down up coarse j chi F
          = .error .assertionFailed)
  ∧ (∀ (pgs : ℕ → Bool → List ℚ → List ℚ → List ℚ → List ℚ × ℕ)
        (res : ℕ → List ℚ → List ℚ → List ℚ) (symmetric : Bool)
        (down up coarse : ℤ) (j : ℕ) (chi : ℕ → List ℚ) (F : List ℚ),
        1 ≤ down → 0 ≤ up → 1 ≤ coarse → F.length ≠ MeshB.m j + 2 →
        SubsetDecomp.vcycle pgs res symmetric down up coarse j chi F
          = .error .assertionFailed)
  ∧ (∀ (pgs : ℕ → Bool → List ℚ → List ℚ → List ℚ → List ℚ × ℕ)
        (res : ℕ → List ℚ → List ℚ → List ℚ) (symmetric : Bool)
        (down coarse : ℤ) (j : ℕ) (chi : ℕ → List ℚ) (F : List ℚ),
        1 ≤ down → 1 ≤ coarse → F.length = MeshB.m j + 2 →
        ∃ out, SubsetDecomp.vcycle pgs res symmetric down 0 coarse j chi F
          = .ok out) := by
  refine ⟨?_, ?_, ?_⟩
  · intro pgs res symmetric down up coarse j chi F h
    rw [SubsetDecomp.vcycle]
    rw [if_pos (by omega : ¬(1 ≤ down ∧ 0 ≤ up ∧ 1 ≤ coarse))]
  · intro pgs res symmetric down up coarse j chi F hdown hup hcoarse hne
    rw [SubsetDecomp.vcycle]
    rw [if_neg (not_not_intro ⟨hdown, hup, hcoarse⟩), if_pos hne]
  · intro pgs res symmetric down coarse j chi F hdown hcoarse hF
    exact cdVcycle_ok pgs res symmetric down coarse hdown hcoarse j chi F hF

/-- Witness for C9: down = 0 is rejected at j = 0 even with a well-sized
functional. -/
theorem C9_vcycle_guards_witness :
    SubsetDecomp.vcycle (fun _ _ v _ _ => (v, 0)) (fun _ v _ => v) false 0 0 1 0
        (fun _ => List.replicate 3 0) (List.replicate 3 0)
      = .error .assertionFailed :=
  C9_vcycle_guards.1 (fun _ _ v _ _ => (v, 0)) (fun _ v _ => v) false 0 0 1 0
    (fun _ => List.replicate 3 0) (List.replicate 3 0) (by omega)

/-- Witness for C5 at L = 2 with trivial collaborators. -/
theorem C5_work_units_witness :
    ∃ u' w, FAS.vcycle 0 1 1 0 (fun _ _ => fun _ => 0) (fun _ w _ => w) (fun _ w _ => w)
        (fun _ v => v) (fun _ v => v) (fun _ v => v) (fun _ => 1)
        (2 - 1) (fun _ => 0) (fun _ => 0) (fun _ => 0)
        = .ok (u', w)
      ∧ (∀ k, k ≤ 2 - 1 → w k = 1)
      ∧ FAS.wutotal (2 - 1) w = ∑ k ∈ Finset.range 2, ((2 : ℚ) ^ (2 - 1 - k))⁻¹ * 1 :=
  C5_work_units.2 2 (by decide) (fun _ _ => fun _ => 0) (fun _ w _ => w) (fun _ w _ => w)
    (fun _ v => v) (fun _ v => v) (fun _ v => v) (fun _ => 1) (fun _ => 0) (fun _ => 0)

end FasIntro
